import Mathlib

/-!
Verification of the QA_Server ingestion and query pipeline.

The Python sources `scripts/ingest.py`, `scripts/query.py` and `app/api.py`
are embedded shallowly: strings are Lean `String`s (manipulated through
their `List Char` data so that every definition is structural and
kernel-executable), Python dicts with a fixed key set become structures,
optional dict keys become `Option` fields, and the external collaborators
(the LangChain markdown splitter, the Chroma vector store, the OpenAI
client) are modelled from the specification where their code is not part
of the repository.
-/

/-- The whitespace characters stripped by Python's `str.strip()`
(space, tab, newline, carriage return, vertical tab, form feed). -/
def isPyWs (c : Char) : Bool :=
  c = ' ' || c = '\t' || c = '\n' || c = '\r' || c = '\x0b' || c = '\x0c'

/-- Python `str.strip()` on the character list: drop whitespace from both ends. -/
def stripChars (l : List Char) : List Char :=
  ((l.dropWhile isPyWs).reverse.dropWhile isPyWs).reverse

/-- Python `str.strip()` as used by `ingest.py`'s empty-chunk test and by
LangChain's header parsing. -/
def pyStrip (s : String) : String :=
  (stripChars s.data).asString

/-- Split a character list at every occurrence of a separator character,
the semantics of Python's `text.split(sep)` for a one-character separator:
`splitOnChar c [] = [[]]` just as `"".split(sep) == [""]`. -/
def splitOnChar (c : Char) : List Char → List (List Char)
  | [] => [[]]
  | x :: xs =>
    if x = c then [] :: splitOnChar c xs
    else
      match splitOnChar c xs with
      | [] => [[x]]
      | l :: ls => (x :: l) :: ls

/-- The lines of a text, Python's `text.split("\n")`. -/
def linesOf (s : String) : List String :=
  (splitOnChar '\n' s.data).map List.asString

/-- Join lines back with newlines, Python's `"\n".join(lines)`. -/
def joinLines : List String → String
  | [] => ""
  | [l] => l
  | l :: ls => l ++ "\n" ++ joinLines ls

/-- `os.path.basename` for POSIX paths: the part after the last `/`. -/
def basename (p : String) : String :=
  ((splitOnChar '/' p.data).getLastD []).asString

/-! ## Preprocessor (`ingest.py`, `preprocess_markdown`, lines 39-47)

`re.sub(r'!\[.*?\]\(.*?\)', '', text)` followed by
`re.sub(r'<[^>]*>', '', text)`.  Python's `.` does not match a newline, so
both `.*?` groups of the image pattern stay within one line, while `[^>]*`
of the tag pattern may cross lines.  `re.sub` replaces the leftmost match,
then continues scanning right after it (non-overlapping matches); a
position where no match starts is copied to the output unchanged.  The
scanners below implement exactly that; the fuel arguments are started at
the length of the input, which always suffices because every recursive
step consumes at least one character. -/

/-- Scan for the first occurrence of `target`, failing on a newline or at
the end: the behaviour of a non-greedy `.*?` followed by the literal
`target`.  Returns the characters before the target and the rest after it. -/
def scanToCharNoNL (target : Char) : List Char → Option (List Char × List Char)
  | [] => none
  | x :: xs =>
    if x = target then some ([], xs)
    else if x = '\n' then none
    else
      match scanToCharNoNL target xs with
      | some (a, r) => some (x :: a, r)
      | none => none

/-- Scan for the first occurrence of `target` with no newline restriction:
the behaviour of a greedy `[^t]*` followed by the literal `t`. -/
def scanToCharAny (target : Char) : List Char → Option (List Char × List Char)
  | [] => none
  | x :: xs =>
    if x = target then some ([], xs)
    else
      match scanToCharAny target xs with
      | some (a, r) => some (x :: a, r)
      | none => none

/-- Matching of the regex tail `.*?\]\(.*?\)` at the start of `l` with
Python's backtracking order: the first `]` directly followed by `(` whose
parenthesised part closes before a newline wins; on failure the outer
`.*?` is extended past that `]` and the scan restarts.  Returns the
consumed prefix and the rest. -/
def matchAfterBracketF : Nat → List Char → Option (List Char × List Char)
  | 0, _ => none
  | fuel + 1, l =>
    match scanToCharNoNL ']' l with
    | none => none
    | some (a, rest) =>
      match rest with
      | '(' :: r2 =>
        match scanToCharNoNL ')' r2 with
        | some (u, r3) => some (a ++ ']' :: '(' :: u ++ [')'], r3)
        | none =>
          match matchAfterBracketF fuel rest with
          | some (p, r) => some (a ++ ']' :: p, r)
          | none => none
      | _ =>
        match matchAfterBracketF fuel rest with
        | some (p, r) => some (a ++ ']' :: p, r)
        | none => none

/-- A match of `!\[.*?\]\(.*?\)` starting at the head of `l`:
the matched span and the rest of the input. -/
def matchImgAt : List Char → Option (List Char × List Char)
  | '!' :: '[' :: rest =>
    match matchAfterBracketF rest.length rest with
    | some (p, r) => some ('!' :: '[' :: p, r)
    | none => none
  | _ => none

/-- One global pass of `re.sub(r'!\[.*?\]\(.*?\)', '', text)`. -/
def subImgF : Nat → List Char → List Char
  | _, [] => []
  | 0, l => l
  | fuel + 1, c :: rest =>
    match matchImgAt (c :: rest) with
    | some (_, r) => subImgF fuel r
    | none => c :: subImgF fuel rest

/-- `re.sub(r'!\[.*?\]\(.*?\)', '', text)` on the character list. -/
def subImg (l : List Char) : List Char := subImgF l.length l

/-- One global pass of `re.sub(r'<[^>]*>', '', text)`: at a `<`, the
greedy `[^>]*` together with the final `>` consume everything up to and
including the first `>`; a `<` with no later `>` matches nothing. -/
def subTagF : Nat → List Char → List Char
  | _, [] => []
  | 0, l => l
  | fuel + 1, c :: rest =>
    if c = '<' then
      match scanToCharAny '>' rest with
      | some (_, r) => subTagF fuel r
      | none => c :: subTagF fuel rest
    else c :: subTagF fuel rest

/-- `re.sub(r'<[^>]*>', '', text)` on the character list. -/
def subTag (l : List Char) : List Char := subTagF l.length l

/-- `preprocess_markdown` (`ingest.py` lines 39-47): remove image links,
then remove HTML tags. -/
def preprocess_markdown (text : String) : String :=
  (subTag (subImg text.data)).asString

example : preprocess_markdown "a ![alt](img.jpg) b" = "a  b" := by decide
example : preprocess_markdown "x <div>y</div> z" = "x y z" := by decide
example : preprocess_markdown "x < 3 and y > 2" = "x  2" := by decide

/-! ## Header-hierarchy splitter

Modelled from the spec: LangChain's `MarkdownHeaderTextSplitter`, which
`chunk_markdown_with_headers` (`ingest.py` lines 49-71) invokes with
`headers_to_split_on = [("#", "title"), ("##", "section"),
("###", "subsection")]`, `strip_headers=False` and
`return_each_line=False`, is not part of this repository.  Per spec
section 4.2 it splits the text at markdown headers of levels `#`, `##`,
`###`, "producing one chunk per header-delimited region with
strip_headers=false (headers remain in chunk text)", and each chunk
carries only the metadata keys for header levels that actually appear in
that chunk's own region. -/

/-- The header level of a line: `# ` is level 1, `## ` level 2,
`### ` level 3; anything else (including `#### `) is not a split header. -/
def headerLevel (line : String) : Option Nat :=
  match line.data with
  | '#' :: '#' :: '#' :: ' ' :: _ => some 3
  | '#' :: '#' :: ' ' :: _ => some 2
  | '#' :: ' ' :: _ => some 1
  | _ => none

/-- The text of a heading of level `k`: the line with its `k`-character
marker and the following space dropped, stripped of surrounding blanks. -/
def headingText (k : Nat) (line : String) : String :=
  (stripChars (line.data.drop (k + 1))).asString

/-- The header-delimited regions of a line list: a new region starts at
every header line, and the lines before the first header (if any) form a
leading headerless region. -/
def splitRegions : List String → List (List String)
  | [] => []
  | [l] => [[l]]
  | l :: l2 :: rest =>
    if (headerLevel l2).isSome then [l] :: splitRegions (l2 :: rest)
    else
      match splitRegions (l2 :: rest) with
      | [] => [[l]]
      | r :: rs => (l :: r) :: rs

/-- The splitter metadata of one chunk: the Python dict whose possible keys
are `title`, `section` and `subsection` (`sect` stands for the `section`
key, which is a Lean keyword). -/
structure HeaderMeta where
  title : Option String
  sect : Option String
  subsection : Option String
deriving DecidableEq

/-- One chunk as returned by the splitter and carried through
`chunk_markdown_with_headers`: a LangChain `Document` with its
`page_content` and `metadata`. -/
structure SplitChunk where
  page_content : String
  metadata : HeaderMeta
deriving DecidableEq

/-- A placeholder chunk used only as the default of `List.getD`. -/
def dummyChunk : SplitChunk := ⟨"", ⟨none, none, none⟩⟩

/-- The splitter metadata of one region: the key of the header line that
opens the region, if any. -/
def regionMeta : List String → HeaderMeta
  | [] => ⟨none, none, none⟩
  | l :: _ =>
    match headerLevel l with
    | some 1 => ⟨some (headingText 1 l), none, none⟩
    | some 2 => ⟨none, some (headingText 2 l), none⟩
    | some 3 => ⟨none, none, some (headingText 3 l)⟩
    | _ => ⟨none, none, none⟩

/-- Modelled from the spec: `markdown_splitter.split_text(text)` — one
chunk per header-delimited region, header lines kept in the chunk text. -/
def split_text (text : String) : List SplitChunk :=
  (splitRegions (linesOf text)).map fun r => ⟨joinLines r, regionMeta r⟩

/-! ## Metadata inheritance (`ingest.py`, lines 74-97) -/

/-- The inheritance loop of `chunk_markdown_with_headers`, with the running
`current_title` and `current_section` variables as arguments: a chunk that
has a `title` key updates `current_title`, a chunk without one receives the
running value; independently the same for `section`; `subsection` is left
untouched. -/
def processChunksAux (ct cs : String) : List SplitChunk → List SplitChunk
  | [] => []
  | c :: rest =>
    let t := c.metadata.title.getD ct
    let s := c.metadata.sect.getD cs
    ⟨c.page_content, ⟨some t, some s, c.metadata.subsection⟩⟩ ::
      processChunksAux t s rest

/-- `chunk_markdown_with_headers` (`ingest.py` lines 49-97): split the text
at headers, then run the metadata-inheritance loop with both running
values initialised to `""`. -/
def chunk_markdown_with_headers (text : String) : List SplitChunk :=
  processChunksAux "" "" (split_text text)

/-- The most recently seen value among a list of optional metadata values,
defaulting to `d`: the value the running `current_title` /
`current_section` variable holds after folding the list. -/
def lastSeen (d : String) (xs : List (Option String)) : String :=
  xs.foldl (fun acc o => o.getD acc) d

/-! ## Metadata extraction (`ingest.py`, `extract_metadata`, lines 99-125) -/

/-- The metadata dict built by `extract_metadata` (plus, later in the
ingestion loop, `chunk_id` and `chunk_total`, kept separate here).  The
`additional_sections` key is never written by ingestion but is read by the
query-side formatter; the empty list stands for the key being absent or
holding a falsy value. -/
structure Metadata where
  source : String
  path : String
  title : String
  sect : String
  subsection : Option String
  additional_sections : List String
deriving DecidableEq

/-- `extract_metadata` (`ingest.py` lines 99-125): `source` is the file's
basename, `path` the given path; `title` falls back to the filename when
the chunk metadata has no `title` key, `section` falls back to `""`;
`subsection` is copied only when present. -/
def extract_metadata (file_path : String) (chunk_metadata : HeaderMeta) : Metadata :=
  let filename := basename file_path
  { source := filename
    path := file_path
    title := chunk_metadata.title.getD filename
    sect := chunk_metadata.sect.getD ""
    subsection := chunk_metadata.subsection
    additional_sections := [] }

example :
    chunk_markdown_with_headers "# T\n## S\nbody\n### U\nmore" =
      [⟨"# T", ⟨some "T", some "", none⟩⟩,
       ⟨"## S\nbody", ⟨some "T", some "S", none⟩⟩,
       ⟨"### U\nmore", ⟨some "T", some "S", some "U"⟩⟩] := by decide

example :
    chunk_markdown_with_headers "# A\n## S1\ntext\n# B\nmore" =
      [⟨"# A", ⟨some "A", some "", none⟩⟩,
       ⟨"## S1\ntext", ⟨some "A", some "S1", none⟩⟩,
       ⟨"# B\nmore", ⟨some "B", some "S1", none⟩⟩] := by decide

/-! ## Ingestion orchestrator (`ingest.py`, `ingest_docs`, lines 127-189) -/

/-- One accumulated (text, metadata, id) triple of the ingestion run,
together with the `chunk_id` (the enumerate index within its document) and
`chunk_total` values the loop writes into the metadata dict. -/
structure ChunkRecord where
  text : String
  meta : Metadata
  chunk_id : Nat
  chunk_total : Nat
  id : String
deriving DecidableEq

/-- A placeholder record used only as the default of `List.getD`. -/
def dummyRecord : ChunkRecord := ⟨"", ⟨"", "", "", "", none, []⟩, 0, 0, ""⟩

/-- The id string `f"chunk_{chunk_id}"`. -/
def mkId (n : Nat) : String := "chunk_" ++ toString n

/-- The body of the per-file loop of `ingest_docs` (lines 159-177) over the
enumerated chunks of one file: a chunk whose stripped text is empty is
skipped; a surviving chunk yields a record carrying `extract_metadata`'s
result, its enumerate index as `chunk_id`, the file's total splitter chunk
count as `chunk_total`, and the id `chunk_<cid>` from the run-global
counter, which increments only for surviving chunks.  Returns the records
and the counter's final value. -/
def processFileAux (path : String) (total : Nat) :
    List (Nat × SplitChunk) → Nat → List ChunkRecord × Nat
  | [], cid => ([], cid)
  | (i, c) :: rest, cid =>
    if pyStrip c.page_content = "" then processFileAux path total rest cid
    else
      let rec1 : ChunkRecord :=
        ⟨c.page_content, extract_metadata path c.metadata, i, total, mkId cid⟩
      let out := processFileAux path total rest (cid + 1)
      (rec1 :: out.1, out.2)

/-- The per-file part of `ingest_docs`: enumerate the file's chunks and run
the accumulation loop starting from the current global chunk counter. -/
def processFile (path : String) (chunks : List SplitChunk) (cid : Nat) :
    List ChunkRecord × Nat :=
  processFileAux path chunks.length chunks.enum cid

/-- The per-file step of `ingest_docs`' main loop (lines 148-177):
preprocess and chunk one file's contents, then append its surviving
records, carrying the global chunk counter forward. -/
def ingestStep (acc : List ChunkRecord × Nat) (f : String × String) :
    List ChunkRecord × Nat :=
  let chunks := chunk_markdown_with_headers (preprocess_markdown f.2)
  let out := processFile f.1 chunks acc.2
  (acc.1 ++ out.1, out.2)

/-- `ingest_docs` (`ingest.py` lines 143-177) over a corpus given as
(path, contents) pairs: read → preprocess → chunk → accumulate records,
with the global chunk counter carried across files and never reset. -/
def ingest_docs (files : List (String × String)) : List ChunkRecord :=
  (files.foldl ingestStep (([] : List ChunkRecord), 0)).1

/-- The batch writes `ingest_docs` submits to the vector store
(lines 179-189): one `collection.add` with every accumulated triple when
there is at least one, none otherwise. -/
def ingestAddBatches (files : List (String × String)) : List (List ChunkRecord) :=
  let recs := ingest_docs files
  if recs.isEmpty then [] else [recs]

/-! ## Retriever and query pipeline (`query.py`) -/

/-- One stored chunk of the vector store's `kb_documents` collection. -/
structure StoredChunk where
  text : String
  meta : Metadata
deriving DecidableEq

/-- The vector store's document collection. -/
structure Collection where
  entries : List StoredChunk
deriving DecidableEq

/-- Modelled from the spec: the Chroma collection and the embedding model
are external collaborators (spec section 6); a similarity query returns
"the top_k nearest chunks ordered by ascending distance (best match
first)", at most `n` of them.  `dist` is the distance the embedding
assigns to each stored chunk for the current query text. -/
def collectionQuery (dist : StoredChunk → ℚ) (col : Collection) (n : Nat) :
    List (StoredChunk × ℚ) :=
  ((col.entries.map fun e => (e, dist e)).insertionSort
    fun a b => a.2 ≤ b.2).take n

/-- One element of the list `retrieve_context` builds: the dict with keys
`text`, `metadata` and `distance`. -/
structure RetrievedChunk where
  text : String
  metadata : Metadata
  distance : ℚ
deriving DecidableEq

/-- `retrieve_context` (`query.py` lines 42-68): one similarity query
against the collection, then the results dict is repacked index by index
into a list of {text, metadata, distance} entries.  The second component
counts the similarity queries issued against the vector store. -/
def retrieve_context (dist : String → StoredChunk → ℚ) (col : Collection)
    (query : String) (top_k : Nat) : List RetrievedChunk × Nat :=
  let results := collectionQuery (dist query) col top_k
  (results.map fun p => ⟨p.1.text, p.1.meta, p.2⟩, 1)

/-- `format_context` (`query.py` lines 70-91), exactly as the loop writes
it: an accumulator string extended per chunk by the labelled block. -/
def format_context (context_chunks : List RetrievedChunk) : String :=
  context_chunks.foldl
    (fun acc chunk =>
      let section_info :=
        chunk.metadata.sect ++
          (if chunk.metadata.additional_sections ≠ [] then
            " (Also covers: " ++
              String.intercalate ", " chunk.metadata.additional_sections ++ ")"
          else "")
      acc ++ "\n--- Document: " ++ chunk.metadata.source ++ " | Section: " ++
        section_info ++ " ---\n" ++ chunk.text ++ "\n")
    ""

/-- The fixed fallback sentence the prompt instructs the model to emit. -/
def fallbackSentence : String :=
  "I don't have enough information to answer this question."

/-- The instruction part of the prompt template, before the interpolated
context (`query.py` lines 97-101). -/
def promptHeader : String :=
  "You are a helpful assistant for a company. Answer the question based ONLY on the provided context. \nIf you don't know the answer or the information is not in the context, say \"I don't have enough information to answer this question.\"\nDo not make up or infer information that is not explicitly stated in the context.\n\nCONTEXT:\n"

/-- `create_prompt` (`query.py` lines 93-108): the f-string template with
`context` and `query` interpolated. -/
def create_prompt (query context : String) : String :=
  promptHeader ++ context ++ "\n\nQUESTION:\n" ++ query ++ "\n\nANSWER:\n"

/-- The result dict of `query_knowledge_base` (`query.py` lines 143-148). -/
structure QueryResult where
  query : String
  answer : String
  context_chunks : List RetrievedChunk
  model_used : String
deriving DecidableEq

/-- `query_knowledge_base` (`query.py` lines 126-148) with the LLM as an
oracle from the prompt to the generated answer; the second component
counts the similarity queries issued against the vector store. -/
def query_knowledge_base (dist : String → StoredChunk → ℚ) (col : Collection)
    (llm : String → String) (query : String) (model : String) (top_k : Nat) :
    QueryResult × Nat :=
  let retrieved := retrieve_context dist col query top_k
  let formatted_context := format_context retrieved.1
  let prompt := create_prompt query formatted_context
  let answer := llm prompt
  (⟨query, answer, retrieved.1, model⟩, retrieved.2)

/-! ## API endpoint (`app/api.py`) and module-level credential check -/

/-- The part of the process environment the credential check reads. -/
structure ApiEnv where
  openaiApiKey : Option String
deriving DecidableEq

/-- `check_api_key` (`api.py` lines 53-55). -/
def check_api_key (env : ApiEnv) : Bool := env.openaiApiKey.isSome

/-- The request body of `POST /api/query` (`api.py` lines 41-44). -/
structure QueryRequest where
  query : String
  model : String
  top_k : Nat
deriving DecidableEq

/-- The response body of `POST /api/query` (`api.py` lines 47-50). -/
structure QueryResponse where
  query : String
  answer : String
  model_used : String
deriving DecidableEq

/-- The module-level credential check of `query.py` (lines 22-28, and
identically `ingest.py` lines 24-28): importing the module raises a
`ValueError` before anything else runs when `OPENAI_API_KEY` is unset. -/
def query_module_init (env : ApiEnv) : Except String Unit :=
  if env.openaiApiKey.isNone then
    Except.error "OPENAI_API_KEY not found in environment variables"
  else Except.ok ()

/-- The `query` endpoint handler (`api.py` lines 63-81): a missing key
yields HTTP 500 before `query_knowledge_base` is invoked; otherwise the
pipeline runs and the response keeps query, answer and model.  The second
component counts the similarity queries issued against the vector store. -/
def api_query (env : ApiEnv) (dist : String → StoredChunk → ℚ)
    (col : Collection) (llm : String → String) (req : QueryRequest) :
    Except (Nat × String) QueryResponse × Nat :=
  if check_api_key env = false then
    (Except.error (500, "OpenAI API key not found"), 0)
  else
    let out := query_knowledge_base dist col llm req.query req.model req.top_k
    (Except.ok ⟨out.1.query, out.1.answer, out.1.model_used⟩, out.2)

/-! ## Lemmas about the inheritance loop -/

theorem processChunksAux_length (ct cs : String) (l : List SplitChunk) :
    (processChunksAux ct cs l).length = l.length := by
  induction l generalizing ct cs with
  | nil => rfl
  | cons c rest ih => simp [processChunksAux, ih]

theorem lastSeen_nil (d : String) : lastSeen d [] = d := rfl

theorem lastSeen_cons (d : String) (o : Option String) (xs : List (Option String)) :
    lastSeen d (o :: xs) = lastSeen (o.getD d) xs := rfl

theorem lastSeen_append (d : String) (xs ys : List (Option String)) :
    lastSeen d (xs ++ ys) = lastSeen (lastSeen d xs) ys := by
  simp [lastSeen, List.foldl_append]

theorem lastSeen_of_all_none (d : String) (ys : List (Option String))
    (h : ∀ o ∈ ys, o = none) : lastSeen d ys = d := by
  induction ys with
  | nil => rfl
  | cons o t ih =>
    have ho : o = none := h o (List.mem_cons_self o t)
    rw [lastSeen_cons, ho]
    exact ih fun x hx => h x (List.mem_cons_of_mem _ hx)

/-- Elementwise description of the inheritance loop's output: chunk `i`
keeps its text and `subsection`, while its `title` and `section` become the
chunk's own value when present and otherwise the most recently seen value
over the earlier chunks (starting from the running values `ct`, `cs`). -/
theorem processChunksAux_getD (ct cs : String) (l : List SplitChunk) (i : Nat)
    (h : i < l.length) :
    (processChunksAux ct cs l).getD i dummyChunk =
      ⟨(l.getD i dummyChunk).page_content,
       ⟨some ((l.getD i dummyChunk).metadata.title.getD
          (lastSeen ct ((l.take i).map fun c => c.metadata.title))),
        some ((l.getD i dummyChunk).metadata.sect.getD
          (lastSeen cs ((l.take i).map fun c => c.metadata.sect))),
        (l.getD i dummyChunk).metadata.subsection⟩⟩ := by
  induction l generalizing ct cs i with
  | nil => simp at h
  | cons c rest ih =>
    cases i with
    | zero => simp [processChunksAux, lastSeen]
    | succ n =>
      have hn : n < rest.length := by simpa using h
      simp only [processChunksAux, List.getD_cons_succ, List.take_succ_cons,
        List.map_cons, lastSeen_cons]
      exact ih _ _ n hn

theorem processChunksAux_mem (ct cs : String) (l : List SplitChunk) :
    ∀ c ∈ processChunksAux ct cs l,
      c.metadata.title.isSome ∧ c.metadata.sect.isSome := by
  induction l generalizing ct cs with
  | nil => simp [processChunksAux]
  | cons c rest ih =>
    intro x hx
    simp only [processChunksAux, List.mem_cons] at hx
    rcases hx with rfl | hx
    · exact ⟨rfl, rfl⟩
    · exact ih _ _ x hx

theorem processChunksAux_title_const (ct cs : String) (l : List SplitChunk)
    (h : ∀ c ∈ l, c.metadata.title = none) :
    ∀ c ∈ processChunksAux ct cs l, c.metadata.title = some ct := by
  induction l generalizing ct cs with
  | nil => simp [processChunksAux]
  | cons c rest ih =>
    intro x hx
    have hc : c.metadata.title = none := h c (List.mem_cons_self c rest)
    simp only [processChunksAux, List.mem_cons] at hx
    rcases hx with rfl | hx
    · simp [hc]
    · have := ih (c.metadata.title.getD ct) (c.metadata.sect.getD cs)
        (fun y hy => h y (List.mem_cons_of_mem _ hy)) x hx
      simpa [hc] using this

/-! ## Lemmas about the region splitter -/

theorem splitRegions_shape :
    ∀ (xs : List String) (x : String),
      ∃ t rs, splitRegions (x :: xs) = (x :: t) :: rs := by
  intro xs
  induction xs with
  | nil => intro x; exact ⟨[], [], rfl⟩
  | cons y ys ih =>
    intro x
    by_cases hy : (headerLevel y).isSome
    · exact ⟨[], splitRegions (y :: ys), by simp [splitRegions, hy]⟩
    · obtain ⟨t, rs, h⟩ := ih y
      exact ⟨y :: t, rs, by simp [splitRegions, hy, h]⟩

theorem splitRegions_join (ls : List String) : (splitRegions ls).flatten = ls := by
  induction ls with
  | nil => rfl
  | cons x xs ih =>
    cases xs with
    | nil => rfl
    | cons y ys =>
      by_cases hy : (headerLevel y).isSome
      · simp [splitRegions, hy, ih]
      · obtain ⟨t, rs, h⟩ := splitRegions_shape ys y
        rw [show splitRegions (x :: y :: ys) = (x :: y :: t) :: rs from by
          simp [splitRegions, hy, h]]
        have ih' := ih
        rw [h] at ih'
        simp only [List.flatten_cons, List.cons_append, List.cons.injEq,
          true_and] at ih' ⊢
        exact ih'

theorem splitRegions_tail_noHeader :
    ∀ (ls : List String) (r : List String), r ∈ splitRegions ls →
      ∀ l ∈ r.tail, headerLevel l = none := by
  intro ls
  induction ls with
  | nil => simp [splitRegions]
  | cons x xs ih =>
    cases xs with
    | nil =>
      intro r hr l hl
      simp [splitRegions] at hr
      subst hr
      simp at hl
    | cons y ys =>
      intro r hr l hl
      by_cases hy : (headerLevel y).isSome
      · rw [show splitRegions (x :: y :: ys) = [x] :: splitRegions (y :: ys) from
          by simp [splitRegions, hy]] at hr
        rcases List.mem_cons.mp hr with rfl | hr
        · simp at hl
        · exact ih r hr l hl
      · obtain ⟨t, rs, hs⟩ := splitRegions_shape ys y
        rw [show splitRegions (x :: y :: ys) = (x :: y :: t) :: rs from by
          simp [splitRegions, hy, hs]] at hr
        have hyn : headerLevel y = none := Option.not_isSome_iff_eq_none.mp hy
        rcases List.mem_cons.mp hr with rfl | hr
        · rcases List.mem_cons.mp hl with rfl | hl
          · exact hyn
          · exact ih (y :: t) (by rw [hs]; exact List.mem_cons_self _ _) l hl
        · exact ih r (by rw [hs]; exact List.mem_cons_of_mem _ hr) l hl

theorem splitRegions_ne_nil :
    ∀ (ls : List String), ∀ r ∈ splitRegions ls, r ≠ [] := by
  intro ls
  induction ls with
  | nil => simp [splitRegions]
  | cons x xs ih =>
    cases xs with
    | nil =>
      intro r hr
      simp [splitRegions] at hr
      subst hr
      simp
    | cons y ys =>
      intro r hr
      by_cases hy : (headerLevel y).isSome
      · rw [show splitRegions (x :: y :: ys) = [x] :: splitRegions (y :: ys) from
          by simp [splitRegions, hy]] at hr
        rcases List.mem_cons.mp hr with rfl | hr
        · simp
        · exact ih r hr
      · obtain ⟨t, rs, hs⟩ := splitRegions_shape ys y
        rw [show splitRegions (x :: y :: ys) = (x :: y :: t) :: rs from by
          simp [splitRegions, hy, hs]] at hr
        rcases List.mem_cons.mp hr with rfl | hr
        · simp
        · exact ih r (by rw [hs]; exact List.mem_cons_of_mem _ hr)

theorem headerLevel_cases {l : String} {k : Nat} (h : headerLevel l = some k) :
    k = 1 ∨ k = 2 ∨ k = 3 := by
  unfold headerLevel at h
  split at h <;> simp_all

theorem regionMeta_subsection_iff (l : String) (t : List String)
    (ht : ∀ x ∈ t, headerLevel x = none) :
    (regionMeta (l :: t)).subsection.isSome ↔
      ∃ x ∈ l :: t, headerLevel x = some 3 := by
  constructor
  · intro h
    refine ⟨l, List.mem_cons_self _ _, ?_⟩
    rcases hl : headerLevel l with _ | k
    · simp [regionMeta, hl] at h
    · rcases headerLevel_cases hl with rfl | rfl | rfl
      · simp [regionMeta, hl] at h
      · simp [regionMeta, hl] at h
      · rfl
  · rintro ⟨x, hx, hx3⟩
    rcases List.mem_cons.mp hx with rfl | hx
    · simp [regionMeta, hx3]
    · exact absurd hx3 (by simp [ht x hx])

theorem regionMeta_title_none_iff (l : String) (t : List String) :
    (regionMeta (l :: t)).title = none ↔ headerLevel l ≠ some 1 := by
  rcases hl : headerLevel l with _ | k
  · simp [regionMeta, hl]
  · rcases headerLevel_cases hl with rfl | rfl | rfl <;> simp [regionMeta, hl]

theorem regionMeta_sect_none_iff (l : String) (t : List String) :
    (regionMeta (l :: t)).sect = none ↔ headerLevel l ≠ some 2 := by
  rcases hl : headerLevel l with _ | k
  · simp [regionMeta, hl]
  · rcases headerLevel_cases hl with rfl | rfl | rfl <;> simp [regionMeta, hl]

theorem length_split_text (text : String) :
    (split_text text).length = (splitRegions (linesOf text)).length := by
  simp [split_text]

theorem length_chunk_markdown (text : String) :
    (chunk_markdown_with_headers text).length = (split_text text).length := by
  simp [chunk_markdown_with_headers, processChunksAux_length]

theorem split_text_getD (text : String) (i : Nat)
    (h : i < (splitRegions (linesOf text)).length) :
    (split_text text).getD i dummyChunk =
      ⟨joinLines ((splitRegions (linesOf text)).getD i []),
       regionMeta ((splitRegions (linesOf text)).getD i [])⟩ := by
  have h' : i < (split_text text).length := by simpa [split_text] using h
  rw [List.getD_eq_getElem _ _ h', List.getD_eq_getElem _ _ h]
  simp [split_text]

/-- C1: for every document split by the header-hierarchy chunker, each
chunk of `chunk_markdown_with_headers` satisfies the inheritance rule: a
chunk whose splitter-produced metadata lacks `title` receives the most
recently seen `title` of an earlier chunk in document order (the empty
string when no earlier chunk carried one); the same rule applies
independently to `section`; and `subsection` is never inherited — it is
present exactly when a `###` heading occurs in that chunk's own region. -/
theorem C1_chunk_metadata_inheritance (text : String) (i : Nat)
    (h : i < (chunk_markdown_with_headers text).length) :
    ((chunk_markdown_with_headers text).getD i dummyChunk).metadata.title =
      some (((split_text text).getD i dummyChunk).metadata.title.getD
        (lastSeen "" (((split_text text).take i).map fun c => c.metadata.title))) ∧
    ((chunk_markdown_with_headers text).getD i dummyChunk).metadata.sect =
      some (((split_text text).getD i dummyChunk).metadata.sect.getD
        (lastSeen "" (((split_text text).take i).map fun c => c.metadata.sect))) ∧
    ((chunk_markdown_with_headers text).getD i dummyChunk).metadata.subsection =
      ((split_text text).getD i dummyChunk).metadata.subsection ∧
    (((chunk_markdown_with_headers text).getD i dummyChunk).metadata.subsection.isSome ↔
      ∃ line ∈ (splitRegions (linesOf text)).getD i [], headerLevel line = some 3) := by
  have h' : i < (split_text text).length := by
    rwa [length_chunk_markdown] at h
  have hreg : i < (splitRegions (linesOf text)).length := by
    rwa [length_split_text] at h'
  have key := processChunksAux_getD "" "" (split_text text) i h'
  rw [show chunk_markdown_with_headers text =
      processChunksAux "" "" (split_text text) from rfl, key]
  refine ⟨rfl, rfl, rfl, ?_⟩
  rw [split_text_getD text i hreg]
  have hmem : (splitRegions (linesOf text)).getD i [] ∈ splitRegions (linesOf text) := by
    rw [List.getD_eq_getElem _ _ hreg]
    exact List.getElem_mem hreg
  rcases hr : (splitRegions (linesOf text)).getD i [] with _ | ⟨hd, tl⟩
  · exact absurd hr (splitRegions_ne_nil _ _ hmem)
  · rw [hr] at hmem
    exact regionMeta_subsection_iff hd tl
      (fun x hx => splitRegions_tail_noHeader _ _ hmem x hx)

/-- Witness for C1 at a concrete document and chunk index. -/
theorem C1_chunk_metadata_inheritance_witness :
    ((chunk_markdown_with_headers "# T\n## S\nbody\n### U\nmore").getD 2
        dummyChunk).metadata.subsection.isSome ↔
      ∃ line ∈ (splitRegions (linesOf "# T\n## S\nbody\n### U\nmore")).getD 2 [],
        headerLevel line = some 3 :=
  (C1_chunk_metadata_inheritance "# T\n## S\nbody\n### U\nmore" 2 (by decide)).2.2.2

/-- Stability of inherited titles: when none of the chunks strictly between
`i` and `k` (inclusive of `k`) carries its own `title` key, the processed
chunks `i` and `k` hold the same title. -/
theorem processChunksAux_title_stable (ct cs : String) (l : List SplitChunk)
    (i k : Nat) (hik : i ≤ k) (hk : k < l.length)
    (hnone : ∀ j, i < j → j ≤ k → (l.getD j dummyChunk).metadata.title = none) :
    ((processChunksAux ct cs l).getD k dummyChunk).metadata.title =
      ((processChunksAux ct cs l).getD i dummyChunk).metadata.title := by
  rcases Nat.eq_or_lt_of_le hik with rfl | hik'
  · rfl
  have hi : i < l.length := lt_trans hik' hk
  rw [processChunksAux_getD ct cs l k hk, processChunksAux_getD ct cs l i hi]
  have hkt : (l.getD k dummyChunk).metadata.title = none :=
    hnone k hik' le_rfl
  rw [hkt]
  simp only [Option.getD_none]
  have hsplit : l.take k = l.take (i + 1) ++ (l.take k).drop (i + 1) := by
    conv_lhs => rw [← List.take_append_drop (i + 1) (l.take k)]
    rw [List.take_take, Nat.min_eq_left (by omega)]
  rw [hsplit, List.map_append, lastSeen_append]
  have hmid : ∀ o ∈ ((l.take k).drop (i + 1)).map (fun c => c.metadata.title),
      o = none := by
    intro o ho
    rcases List.mem_map.mp ho with ⟨c, hc, rfl⟩
    rcases List.mem_iff_getElem.mp hc with ⟨m, hm, hcm⟩
    have hmlen : i + 1 + m < k := by
      have := hm
      simp only [List.length_drop, List.length_take] at this
      omega
    have hjl : i + 1 + m < l.length := lt_trans hmlen hk
    have : c = l[i + 1 + m] := by
      rw [← hcm, List.getElem_drop, List.getElem_take]
    rw [this]
    have := hnone (i + 1 + m) (by omega) (by omega)
    rwa [List.getD_eq_getElem _ _ hjl] at this
  rw [lastSeen_of_all_none _ _ hmid]
  have htake : l.take (i + 1) = l.take i ++ [l[i]] := by
    rw [List.take_succ, List.getElem?_eq_getElem hi]
    rfl
  rw [htake, List.map_append, lastSeen_append]
  rw [List.getD_eq_getElem _ _ hi]
  rfl

/-- Stability of inherited sections, the `section` twin of
`processChunksAux_title_stable`. -/
theorem processChunksAux_sect_stable (ct cs : String) (l : List SplitChunk)
    (i k : Nat) (hik : i ≤ k) (hk : k < l.length)
    (hnone : ∀ j, i < j → j ≤ k → (l.getD j dummyChunk).metadata.sect = none) :
    ((processChunksAux ct cs l).getD k dummyChunk).metadata.sect =
      ((processChunksAux ct cs l).getD i dummyChunk).metadata.sect := by
  rcases Nat.eq_or_lt_of_le hik with rfl | hik'
  · rfl
  have hi : i < l.length := lt_trans hik' hk
  rw [processChunksAux_getD ct cs l k hk, processChunksAux_getD ct cs l i hi]
  have hkt : (l.getD k dummyChunk).metadata.sect = none :=
    hnone k hik' le_rfl
  rw [hkt]
  simp only [Option.getD_none]
  have hsplit : l.take k = l.take (i + 1) ++ (l.take k).drop (i + 1) := by
    conv_lhs => rw [← List.take_append_drop (i + 1) (l.take k)]
    rw [List.take_take, Nat.min_eq_left (by omega)]
  rw [hsplit, List.map_append, lastSeen_append]
  have hmid : ∀ o ∈ ((l.take k).drop (i + 1)).map (fun c => c.metadata.sect),
      o = none := by
    intro o ho
    rcases List.mem_map.mp ho with ⟨c, hc, rfl⟩
    rcases List.mem_iff_getElem.mp hc with ⟨m, hm, hcm⟩
    have hmlen : i + 1 + m < k := by
      have := hm
      simp only [List.length_drop, List.length_take] at this
      omega
    have hjl : i + 1 + m < l.length := lt_trans hmlen hk
    have : c = l[i + 1 + m] := by
      rw [← hcm, List.getElem_drop, List.getElem_take]
    rw [this]
    have := hnone (i + 1 + m) (by omega) (by omega)
    rwa [List.getD_eq_getElem _ _ hjl] at this
  rw [lastSeen_of_all_none _ _ hmid]
  have htake : l.take (i + 1) = l.take i ++ [l[i]] := by
    rw [List.take_succ, List.getElem?_eq_getElem hi]
    rfl
  rw [htake, List.map_append, lastSeen_append]
  rw [List.getD_eq_getElem _ _ hi]
  rfl

/-- C2 fails on the code: in `"# A\n## S1\ntext\n# B\nmore"` the third
chunk opens with the new `#` heading `B` (its splitter metadata has a
`title` key and no `section` key), yet after the inheritance loop its
`section` is still `"S1"` — the value set under the previous `#` heading.
The loop never resets `section` when a heading of higher level appears. -/
theorem C2_counterexample_section_survives_new_title :
    ((split_text "# A\n## S1\ntext\n# B\nmore").getD 2 dummyChunk).metadata.title =
      some "B" ∧
    ((split_text "# A\n## S1\ntext\n# B\nmore").getD 2 dummyChunk).metadata.sect =
      none ∧
    ((chunk_markdown_with_headers "# A\n## S1\ntext\n# B\nmore").getD 1
        dummyChunk).metadata.sect = some "S1" ∧
    ((chunk_markdown_with_headers "# A\n## S1\ntext\n# B\nmore").getD 2
        dummyChunk).metadata.sect = some "S1" := by decide

/-- C2 (amended): a `title` value propagates unchanged into subsequent
chunks until a new `#` heading appears, and a `section` value propagates
unchanged until a new `##` heading appears — including across `#`
headings, so a chunk following a new `#` heading still carries the
`section` value set under the previous `#` heading
(`C2_counterexample_section_survives_new_title`). -/
theorem C2_value_propagation_until_same_level (text : String) (i k : Nat)
    (hik : i ≤ k) (hk : k < (chunk_markdown_with_headers text).length) :
    ((∀ j, i < j → j ≤ k →
        headerLevel ((splitRegions (linesOf text)).getD j []).headI ≠ some 1) →
      ((chunk_markdown_with_headers text).getD k dummyChunk).metadata.title =
        ((chunk_markdown_with_headers text).getD i dummyChunk).metadata.title) ∧
    ((∀ j, i < j → j ≤ k →
        headerLevel ((splitRegions (linesOf text)).getD j []).headI ≠ some 2) →
      ((chunk_markdown_with_headers text).getD k dummyChunk).metadata.sect =
        ((chunk_markdown_with_headers text).getD i dummyChunk).metadata.sect) := by
  have hk' : k < (split_text text).length := by
    rwa [length_chunk_markdown] at hk
  have hconv : ∀ j, j ≤ k →
      ∃ hd tl, (splitRegions (linesOf text)).getD j [] = hd :: tl ∧
        (split_text text).getD j dummyChunk =
          ⟨joinLines (hd :: tl), regionMeta (hd :: tl)⟩ := by
    intro j hj
    have hjr : j < (splitRegions (linesOf text)).length := by
      rw [← length_split_text]; omega
    have hmem : (splitRegions (linesOf text)).getD j [] ∈
        splitRegions (linesOf text) := by
      rw [List.getD_eq_getElem _ _ hjr]
      exact List.getElem_mem hjr
    rcases hr : (splitRegions (linesOf text)).getD j [] with _ | ⟨hd, tl⟩
    · exact absurd hr (splitRegions_ne_nil _ _ hmem)
    · exact ⟨hd, tl, rfl, by rw [split_text_getD text j hjr, hr]⟩
  constructor
  · intro hno
    refine processChunksAux_title_stable "" "" (split_text text) i k hik hk' ?_
    intro j h1 h2
    obtain ⟨hd, tl, hr, hs⟩ := hconv j h2
    rw [hs]
    have := hno j h1 h2
    rw [hr] at this
    simpa [regionMeta_title_none_iff] using this
  · intro hno
    refine processChunksAux_sect_stable "" "" (split_text text) i k hik hk' ?_
    intro j h1 h2
    obtain ⟨hd, tl, hr, hs⟩ := hconv j h2
    rw [hs]
    have := hno j h1 h2
    rw [hr] at this
    simpa [regionMeta_sect_none_iff] using this

/-- Witness for the amended C2 at a concrete document: no `#` heading
opens regions 1 or 2 of `"# A\n## S\nx\n### U\ny"`, so chunk 2 carries the
same title as chunk 0. -/
theorem C2_value_propagation_witness :
    ((chunk_markdown_with_headers "# A\n## S\nx\n### U\ny").getD 2
        dummyChunk).metadata.title =
      ((chunk_markdown_with_headers "# A\n## S\nx\n### U\ny").getD 0
        dummyChunk).metadata.title :=
  (C2_value_propagation_until_same_level "# A\n## S\nx\n### U\ny" 0 2
    (by decide) (by decide)).1
    (by intro j h1 h2; interval_cases j <;> decide)

/-- C4: every chunk returned by `chunk_markdown_with_headers` has both the
`title` and the `section` key present (possibly as the empty string), so
the filename / empty-string fallback branches of `extract_metadata` are
never taken on its output; and a document none of whose lines is a heading
yields chunks whose extracted title is the empty string, not the filename. -/
theorem C4_title_and_section_always_present (text path : String) :
    (∀ c ∈ chunk_markdown_with_headers text,
      ∃ t s, c.metadata.title = some t ∧ c.metadata.sect = some s ∧
        (extract_metadata path c.metadata).title = t ∧
        (extract_metadata path c.metadata).sect = s) ∧
    ((∀ line ∈ linesOf text, headerLevel line = none) →
      ∀ c ∈ chunk_markdown_with_headers text,
        (extract_metadata path c.metadata).title = "") := by
  constructor
  · intro c hc
    obtain ⟨ht, hs⟩ := processChunksAux_mem "" "" (split_text text) c hc
    rcases Option.isSome_iff_exists.mp ht with ⟨t, htt⟩
    rcases Option.isSome_iff_exists.mp hs with ⟨s, hss⟩
    exact ⟨t, s, htt, hss, by simp [extract_metadata, htt],
      by simp [extract_metadata, hss]⟩
  · intro hnh c hc
    have hall : ∀ c' ∈ split_text text, c'.metadata.title = none := by
      intro c' hc'
      rcases List.mem_map.mp hc' with ⟨r, hr, rfl⟩
      rcases hr0 : r with _ | ⟨hd, tl⟩
      · simp [regionMeta]
      · subst hr0
        apply (regionMeta_title_none_iff hd tl).mpr
        have hdl : hd ∈ linesOf text := by
          rw [← splitRegions_join (linesOf text)]
          exact List.mem_flatten.mpr ⟨hd :: tl, hr, List.mem_cons_self _ _⟩
        simp [hnh hd hdl]
    have := processChunksAux_title_const "" "" (split_text text) hall c hc
    simp [extract_metadata, this]

/-- C5: `extract_metadata` returns a mapping whose `source` is the file's
basename and whose `path` is the given path, with the fallback policy: a
missing `title` key becomes the filename, a missing `section` key becomes
the empty string, a present key keeps its value, and both keys are always
present in the result (they are total fields of the returned record). -/
theorem C5_extract_metadata_fallbacks (file_path : String) (cm : HeaderMeta) :
    (extract_metadata file_path cm).source = basename file_path ∧
    (extract_metadata file_path cm).path = file_path ∧
    (cm.title = none → (extract_metadata file_path cm).title = basename file_path) ∧
    (∀ t, cm.title = some t → (extract_metadata file_path cm).title = t) ∧
    (cm.sect = none → (extract_metadata file_path cm).sect = "") ∧
    (∀ s, cm.sect = some s → (extract_metadata file_path cm).sect = s) := by
  refine ⟨rfl, rfl, ?_, ?_, ?_, ?_⟩
  · intro h; simp [extract_metadata, h]
  · intro t h; simp [extract_metadata, h]
  · intro h; simp [extract_metadata, h]
  · intro s h; simp [extract_metadata, h]

/-- The labelled block the spec prescribes for one retrieved chunk:
`Document: <source> | Section: <section>`, with
`(Also covers: <additional>)` appended exactly when the chunk's metadata
has a non-empty `additional_sections` entry, followed by the chunk text. -/
def contextBlock (c : RetrievedChunk) : String :=
  "\n--- Document: " ++ c.metadata.source ++ " | Section: " ++ c.metadata.sect ++
    (if c.metadata.additional_sections ≠ [] then
      " (Also covers: " ++
        String.intercalate ", " c.metadata.additional_sections ++ ")"
    else "") ++ " ---\n" ++ c.text ++ "\n"

theorem format_context_acc (l : List RetrievedChunk) :
    ∀ acc : String,
      l.foldl
        (fun acc chunk =>
          let section_info :=
            chunk.metadata.sect ++
              (if chunk.metadata.additional_sections ≠ [] then
                " (Also covers: " ++
                  String.intercalate ", " chunk.metadata.additional_sections ++ ")"
              else "")
          acc ++ "\n--- Document: " ++ chunk.metadata.source ++ " | Section: " ++
            section_info ++ " ---\n" ++ chunk.text ++ "\n") acc
        = acc ++ format_context l := by
  induction l with
  | nil => intro acc; simp [format_context]
  | cons c t ih =>
    intro acc
    simp only [List.foldl_cons, format_context]
    rw [ih, ih]
    simp [String.append_assoc]

theorem format_context_nil : format_context [] = "" := rfl

theorem format_context_cons (c : RetrievedChunk) (rest : List RetrievedChunk) :
    format_context (c :: rest) = contextBlock c ++ format_context rest := by
  show List.foldl _ _ (c :: rest) = _
  rw [List.foldl_cons, format_context_acc]
  simp [contextBlock, String.append_assoc]

set_option maxRecDepth 4096 in
/-- C6: the prompt formatter renders each retrieved chunk as a labelled
block `Document: <source> | Section: <section>`, appending
`(Also covers: <additional>)` exactly when the chunk's metadata holds a
non-empty `additional_sections` entry; it concatenates the blocks in
retrieval order; and `create_prompt` wraps the concatenated context and
the verbatim question in the fixed template whose instruction part
contains the answer-only-from-context instruction, the fixed fallback
sentence and the no-fabrication instruction. -/
theorem C6_context_and_prompt_template (c : RetrievedChunk)
    (rest : List RetrievedChunk) (query context : String) :
    format_context [] = "" ∧
    format_context (c :: rest) = contextBlock c ++ format_context rest ∧
    (c.metadata.additional_sections = [] →
      contextBlock c =
        "\n--- Document: " ++ c.metadata.source ++ " | Section: " ++
          c.metadata.sect ++ " ---\n" ++ c.text ++ "\n") ∧
    (c.metadata.additional_sections ≠ [] →
      contextBlock c =
        "\n--- Document: " ++ c.metadata.source ++ " | Section: " ++
          c.metadata.sect ++ " (Also covers: " ++
          String.intercalate ", " c.metadata.additional_sections ++ ")" ++
          " ---\n" ++ c.text ++ "\n") ∧
    create_prompt query context =
      promptHeader ++ context ++ "\n\nQUESTION:\n" ++ query ++ "\n\nANSWER:\n" ∧
    (∃ a b : String,
      promptHeader =
        a ++ "Answer the question based ONLY on the provided context." ++ b) ∧
    (∃ a b : String, promptHeader = a ++ fallbackSentence ++ b) ∧
    (∃ a b : String,
      promptHeader =
        a ++ "Do not make up or infer information that is not explicitly stated in the context." ++ b) := by
  refine ⟨format_context_nil, format_context_cons c rest, ?_, ?_, rfl, ?_, ?_, ?_⟩
  · intro h; simp [contextBlock, h]
  · intro h; simp [contextBlock, h, String.append_assoc]
  · exact ⟨"You are a helpful assistant for a company. ",
      " \nIf you don't know the answer or the information is not in the context, say \"I don't have enough information to answer this question.\"\nDo not make up or infer information that is not explicitly stated in the context.\n\nCONTEXT:\n",
      by decide⟩
  · exact ⟨"You are a helpful assistant for a company. Answer the question based ONLY on the provided context. \nIf you don't know the answer or the information is not in the context, say \"",
      "\"\nDo not make up or infer information that is not explicitly stated in the context.\n\nCONTEXT:\n",
      by decide⟩
  · exact ⟨"You are a helpful assistant for a company. Answer the question based ONLY on the provided context. \nIf you don't know the answer or the information is not in the context, say \"I don't have enough information to answer this question.\"\n",
      "\n\nCONTEXT:\n", by decide⟩

/-- C8: with no credential configured, importing the query module raises
the configuration error, and the API endpoint answers with the HTTP 500
error before `query_knowledge_base` runs — zero similarity queries are
issued against the vector store. -/
theorem C8_missing_credential_fails_fast (dist : String → StoredChunk → ℚ)
    (col : Collection) (llm : String → String) (req : QueryRequest) :
    query_module_init ⟨none⟩ =
      Except.error "OPENAI_API_KEY not found in environment variables" ∧
    api_query ⟨none⟩ dist col llm req =
      (Except.error (500, "OpenAI API key not found"), 0) :=
  ⟨rfl, rfl⟩

instance : IsTotal (StoredChunk × ℚ) fun a b => a.2 ≤ b.2 :=
  ⟨fun a b => le_total a.2 b.2⟩

instance : IsTrans (StoredChunk × ℚ) fun a b => a.2 ≤ b.2 :=
  ⟨fun _ _ _ h1 h2 => le_trans h1 h2⟩

/-- C9: the retriever issues exactly one similarity query, returns the
retrieved chunks ordered by ascending distance (best match first), and
returns `min top_k m` results against a store of `m` chunks — in
particular exactly `m` results when the store holds fewer than `top_k`. -/
theorem C9_retriever_ranked_and_tolerant (dist : String → StoredChunk → ℚ)
    (col : Collection) (query : String) (top_k : Nat) :
    (retrieve_context dist col query top_k).2 = 1 ∧
    (retrieve_context dist col query top_k).1.length =
      min top_k col.entries.length ∧
    ((retrieve_context dist col query top_k).1.map fun c => c.distance).Sorted
      (· ≤ ·) ∧
    (col.entries.length < top_k →
      (retrieve_context dist col query top_k).1.length = col.entries.length) := by
  have hlen : (retrieve_context dist col query top_k).1.length =
      min top_k col.entries.length := by
    simp [retrieve_context, collectionQuery, List.length_take,
      List.length_insertionSort]
  refine ⟨rfl, hlen, ?_, fun hm => by rw [hlen]; omega⟩
  have hsorted : ((col.entries.map fun e => (e, dist query e)).insertionSort
      fun a b => a.2 ≤ b.2).Sorted fun a b => a.2 ≤ b.2 :=
    List.sorted_insertionSort _ _
  have htake : (((col.entries.map fun e => (e, dist query e)).insertionSort
      fun a b => a.2 ≤ b.2).take top_k).Sorted fun a b => a.2 ≤ b.2 :=
    List.Pairwise.sublist (List.take_sublist _ _) hsorted
  show (((collectionQuery (dist query) col top_k).map fun p =>
      (⟨p.1.text, p.1.meta, p.2⟩ : RetrievedChunk)).map fun c => c.distance).Sorted
      (· ≤ ·)
  rw [List.map_map]
  exact (List.pairwise_map).mpr htake

/-! ## Injectivity of the id rendering `chunk_<n>` -/

/-- Reading a decimal digit string (most significant first) back into the
number it denotes. -/
def digitsVal (l : List Char) : Nat :=
  l.foldl (fun a c => a * 10 + (c.toNat - 48)) 0

theorem digitChar_val {d : Nat} (h : d < 10) : (Nat.digitChar d).toNat - 48 = d := by
  interval_cases d <;> rfl

theorem toDigitsCore_append (fuel n : Nat) (ds : List Char) (h : n < fuel) :
    Nat.toDigitsCore 10 fuel n ds = Nat.toDigitsCore 10 fuel n [] ++ ds := by
  induction fuel generalizing n ds with
  | zero => omega
  | succ f ih =>
    simp only [Nat.toDigitsCore]
    by_cases h0 : n / 10 = 0
    · simp [h0]
    · have hn1 : 1 ≤ n := by
        rcases Nat.eq_zero_or_pos n with rfl | hp
        · simp at h0
        · exact hp
      have hlt : n / 10 < f := by
        have hdn : n / 10 < n := Nat.div_lt_self (by omega) (by omega)
        omega
      rw [if_neg h0, if_neg h0, ih _ _ hlt, ih _ [Nat.digitChar (n % 10)] hlt]
      simp

theorem digitsVal_toDigitsCore (fuel n : Nat) (h : n < fuel) :
    digitsVal (Nat.toDigitsCore 10 fuel n []) = n := by
  induction fuel generalizing n with
  | zero => omega
  | succ f ih =>
    simp only [Nat.toDigitsCore]
    by_cases h0 : n / 10 = 0
    · rw [if_pos h0]
      have hn10 : n < 10 := by
        rcases Nat.lt_or_ge n 10 with hh | hh
        · exact hh
        · exact absurd h0 (by
            have : 1 ≤ n / 10 := Nat.le_div_iff_mul_le (by omega) |>.mpr (by omega)
            omega)
      simp [digitsVal, Nat.mod_eq_of_lt hn10, digitChar_val hn10]
    · rw [if_neg h0]
      have hn1 : 1 ≤ n := by
        rcases Nat.eq_zero_or_pos n with rfl | hp
        · simp at h0
        · exact hp
      have hlt : n / 10 < f := by
        have hdn : n / 10 < n := Nat.div_lt_self (by omega) (by omega)
        omega
      rw [toDigitsCore_append f (n / 10) [Nat.digitChar (n % 10)] hlt]
      have hval : digitsVal (Nat.toDigitsCore 10 f (n / 10) [] ++
          [Nat.digitChar (n % 10)]) =
          digitsVal (Nat.toDigitsCore 10 f (n / 10) []) * 10 +
            ((Nat.digitChar (n % 10)).toNat - 48) := by
        simp [digitsVal, List.foldl_append]
      rw [hval, ih _ hlt, digitChar_val (Nat.mod_lt n (by omega))]
      omega

theorem natRepr_injective : Function.Injective Nat.repr := by
  intro m n h
  have hd : Nat.toDigits 10 m = Nat.toDigits 10 n := congrArg String.data h
  have hm := digitsVal_toDigitsCore (m + 1) m (Nat.lt_succ_self m)
  have hn := digitsVal_toDigitsCore (n + 1) n (Nat.lt_succ_self n)
  rw [show Nat.toDigits 10 m = Nat.toDigitsCore 10 (m + 1) m [] from rfl,
    show Nat.toDigits 10 n = Nat.toDigitsCore 10 (n + 1) n [] from rfl] at hd
  rw [← hm, ← hn, hd]

theorem mkId_injective : Function.Injective mkId := by
  intro m n h
  have hd : ("chunk_".data : List Char) ++ (Nat.repr m).data =
      ("chunk_".data : List Char) ++ (Nat.repr n).data := by
    have := congrArg String.data h
    simpa [mkId, String.data_append] using this
  have hrd : (Nat.repr m).data = (Nat.repr n).data :=
    List.append_cancel_left hd
  exact natRepr_injective (String.ext hrd)

/-! ## Lemmas about the ingestion accumulation loop -/

theorem processFileAux_ids (path : String) (total : Nat) :
    ∀ (l : List (Nat × SplitChunk)) (cid : Nat),
      (processFileAux path total l cid).1.map (fun r => r.id) =
        (List.range' cid (processFileAux path total l cid).1.length).map mkId ∧
      (processFileAux path total l cid).2 =
        cid + (processFileAux path total l cid).1.length := by
  intro l
  induction l with
  | nil => intro cid; simp [processFileAux]
  | cons ic rest ih =>
    intro cid
    rcases ic with ⟨i, c⟩
    by_cases hb : pyStrip c.page_content = ""
    · simpa [processFileAux, hb] using ih cid
    · obtain ⟨ih1, ih2⟩ := ih (cid + 1)
      refine ⟨?_, ?_⟩
      · simp only [processFileAux, if_neg hb, List.map_cons, List.length_cons,
          ih1, List.range'_succ]
      · simp only [processFileAux, if_neg hb, List.length_cons, ih2]
        omega

theorem processFileAux_records (path : String) (total : Nat) :
    ∀ (l : List (Nat × SplitChunk)) (cid : Nat),
      (∀ r ∈ (processFileAux path total l cid).1,
        pyStrip r.text ≠ "" ∧ r.chunk_total = total) ∧
      (processFileAux path total l cid).1.length =
        (l.filter fun ic => !(pyStrip ic.2.page_content == "")).length := by
  intro l
  induction l with
  | nil => intro cid; simp [processFileAux]
  | cons ic rest ih =>
    intro cid
    rcases ic with ⟨i, c⟩
    by_cases hb : pyStrip c.page_content = ""
    · simpa [processFileAux, hb, List.filter_cons] using ih cid
    · obtain ⟨ih1, ih2⟩ := ih (cid + 1)
      refine ⟨?_, ?_⟩
      · intro r hr
        simp only [processFileAux, if_neg hb, List.mem_cons] at hr
        rcases hr with rfl | hr
        · exact ⟨hb, rfl⟩
        · exact ih1 r hr
      · simp [processFileAux, if_neg hb, List.filter_cons, hb, ih2]

theorem enum_filter_length (chunks : List SplitChunk) :
    (chunks.enum.filter fun ic => !(pyStrip ic.2.page_content == "")).length =
      (chunks.filter fun c => !(pyStrip c.page_content == "")).length := by
  have h := List.filter_map (p := fun c : SplitChunk => !(pyStrip c.page_content == ""))
    (Prod.snd) (chunks.enum)
  rw [List.enum_map_snd] at h
  have h2 := congrArg List.length h
  simp only [List.length_map] at h2
  rw [h2]
  congr 1

/-- C3 fails on the code in its `chunk_total` part: for the one-file corpus
`[("d/a.md", "\n# A\ntext")]` the splitter yields two chunks, the first of
which is whitespace-only and is skipped (no id, no triple), yet the one
surviving record stores `chunk_total = 2` — the skipped chunk is counted. -/
theorem C3_counterexample_chunk_total_counts_skipped :
    (chunk_markdown_with_headers (preprocess_markdown "\n# A\ntext")).length = 2 ∧
    pyStrip ((chunk_markdown_with_headers
      (preprocess_markdown "\n# A\ntext")).getD 0 dummyChunk).page_content = "" ∧
    ingest_docs [("d/a.md", "\n# A\ntext")] =
      [⟨"# A\ntext", ⟨"a.md", "d/a.md", "A", "", none, []⟩, 1, 2, "chunk_0"⟩] ∧
    ((ingest_docs [("d/a.md", "\n# A\ntext")]).getD 0 dummyRecord).chunk_total ≠
      (ingest_docs [("d/a.md", "\n# A\ntext")]).length := by decide

/-- C3 (amended): chunks whose text is empty or whitespace-only after
trimming are skipped — they are assigned no id and contribute no
(text, metadata, id) triple, and the surviving records' ids continue the
run counter consecutively; but the `chunk_total` stored in the surviving
records of the document counts all splitter-produced chunks, the skipped
ones included. -/
theorem C3_empty_chunks_skipped (path : String) (chunks : List SplitChunk)
    (cid : Nat) :
    (∀ r ∈ (processFile path chunks cid).1,
      pyStrip r.text ≠ "" ∧ r.chunk_total = chunks.length) ∧
    (processFile path chunks cid).1.length =
      (chunks.filter fun c => !(pyStrip c.page_content == "")).length ∧
    (processFile path chunks cid).1.map (fun r => r.id) =
      (List.range' cid (processFile path chunks cid).1.length).map mkId ∧
    (processFile path chunks cid).2 =
      cid + (processFile path chunks cid).1.length := by
  obtain ⟨h1, h2⟩ := processFileAux_records path chunks.length chunks.enum cid
  obtain ⟨h3, h4⟩ := processFileAux_ids path chunks.length chunks.enum cid
  exact ⟨h1, by rw [show (processFile path chunks cid).1 =
      (processFileAux path chunks.length chunks.enum cid).1 from rfl, h2,
      enum_filter_length], h3, h4⟩

theorem ingest_foldl_invariant (files : List (String × String)) :
    ∀ acc : List ChunkRecord × Nat,
      acc.1.map (fun r => r.id) = (List.range' 0 acc.1.length).map mkId →
      acc.2 = acc.1.length →
      ((files.foldl ingestStep acc).1.map (fun r => r.id) =
        (List.range' 0 (files.foldl ingestStep acc).1.length).map mkId ∧
       (files.foldl ingestStep acc).2 = (files.foldl ingestStep acc).1.length) := by
  induction files with
  | nil => intro acc h1 h2; exact ⟨h1, h2⟩
  | cons f fs ih =>
    intro acc h1 h2
    rw [List.foldl_cons]
    obtain ⟨hi, hc⟩ := processFileAux_ids f.1
      (chunk_markdown_with_headers (preprocess_markdown f.2)).length
      (chunk_markdown_with_headers (preprocess_markdown f.2)).enum acc.2
    have hi' : (processFile f.1
        (chunk_markdown_with_headers (preprocess_markdown f.2)) acc.2).1.map
          (fun r => r.id) =
        (List.range' acc.2 (processFile f.1
          (chunk_markdown_with_headers (preprocess_markdown f.2)) acc.2).1.length).map
          mkId := hi
    have hc' : (processFile f.1
        (chunk_markdown_with_headers (preprocess_markdown f.2)) acc.2).2 =
        acc.2 + (processFile f.1
          (chunk_markdown_with_headers (preprocess_markdown f.2)) acc.2).1.length := hc
    have hfst : (ingestStep acc f).1 = acc.1 ++ (processFile f.1
        (chunk_markdown_with_headers (preprocess_markdown f.2)) acc.2).1 := rfl
    have hsnd : (ingestStep acc f).2 = (processFile f.1
        (chunk_markdown_with_headers (preprocess_markdown f.2)) acc.2).2 := rfl
    apply ih
    · rw [hfst, List.map_append, h1, hi', h2, List.length_append,
        ← List.map_append]
      congr 1
      rw [Nat.add_comm acc.1.length]
      simpa using List.range'_append_1 0 acc.1.length _
    · rw [hsnd, hc', hfst, List.length_append, h2]

/-- C10: across a whole ingestion run the ids are `chunk_<n>` with `n`
counting `0, 1, 2, …` over the surviving chunks of all files in document
order — globally unique and monotonically increasing, never reset per
file — and every accumulated (text, metadata, id) record is submitted in
a single batch add (no add happens for an empty run). -/
theorem C10_global_ids_and_single_batch (files : List (String × String)) :
    (ingest_docs files).map (fun r => r.id) =
      (List.range (ingest_docs files).length).map mkId ∧
    ((ingest_docs files).map (fun r => r.id)).Nodup ∧
    (ingestAddBatches files).length ≤ 1 ∧
    ∀ r ∈ ingest_docs files, r ∈ (ingestAddBatches files).flatten := by
  obtain ⟨h1, h2⟩ := ingest_foldl_invariant files ([], 0) (by simp) (by simp)
  have hids : (ingest_docs files).map (fun r => r.id) =
      (List.range (ingest_docs files).length).map mkId := by
    rw [List.range_eq_range']
    exact h1
  refine ⟨hids, ?_, ?_, ?_⟩
  · rw [hids]
    exact (List.nodup_range _).map mkId_injective
  · simp only [ingestAddBatches]
    split <;> simp
  · intro r hr
    simp only [ingestAddBatches]
    split
    · next hemp =>
        rw [List.isEmpty_iff] at hemp
        rw [hemp] at hr
        simp at hr
    · simpa using hr

/-! ## C7: the preprocessor removes exactly regex matches -/

/-- A span the image-link pattern `!\[.*?\]\(.*?\)` can match: `![`, then
characters without a newline, then `](`, then characters without a
newline, then `)`. -/
def isImageLink (s : List Char) : Prop :=
  ∃ a u, s = '!' :: '[' :: (a ++ ']' :: '(' :: (u ++ [')'])) ∧
    '\n' ∉ a ∧ '\n' ∉ u

/-- A span the tag pattern `<[^>]*>` can match: `<`, then characters other
than `>`, then `>`. -/
def isHtmlTag (s : List Char) : Prop :=
  ∃ a, s = '<' :: (a ++ ['>']) ∧ '>' ∉ a

/-- `output` is `input` with some disjoint spans deleted, every deleted
span satisfying `P`, and every character outside the deleted spans kept
unchanged and in order: the pieces list alternates a removed span (`p.1`,
empty or satisfying `P`) with the kept text that follows it (`p.2`). -/
def removalPieces (P : List Char → Prop) (ps : List (List Char × List Char))
    (input output : List Char) : Prop :=
  (∀ p ∈ ps, p.1 = [] ∨ P p.1) ∧
  (ps.map fun p => p.1 ++ p.2).flatten = input ∧
  (ps.map Prod.snd).flatten = output

theorem scanToCharNoNL_spec (t : Char) :
    ∀ (l a r : List Char), scanToCharNoNL t l = some (a, r) →
      l = a ++ t :: r ∧ '\n' ∉ a := by
  intro l
  induction l with
  | nil => intro a r h; simp [scanToCharNoNL] at h
  | cons x xs ih =>
    intro a r h
    by_cases hx : x = t
    · subst hx
      simp [scanToCharNoNL] at h
      obtain ⟨rfl, rfl⟩ := h
      simp
    · by_cases hn : x = '\n'
      · subst hn
        simp [scanToCharNoNL, hx] at h
      · cases hrec : scanToCharNoNL t xs with
        | none => simp [scanToCharNoNL, hx, hn, hrec] at h
        | some pr =>
          rcases pr with ⟨a', r'⟩
          simp [scanToCharNoNL, hx, hn, hrec] at h
          obtain ⟨rfl, rfl⟩ := h
          obtain ⟨he, hna⟩ := ih a' r' hrec
          refine ⟨by simp [he], ?_⟩
          intro hmem
          rcases List.mem_cons.mp hmem with heq | hmem'
          · exact hn heq.symm
          · exact hna hmem'

theorem scanToCharAny_spec (t : Char) :
    ∀ (l a r : List Char), scanToCharAny t l = some (a, r) →
      l = a ++ t :: r ∧ t ∉ a := by
  intro l
  induction l with
  | nil => intro a r h; simp [scanToCharAny] at h
  | cons x xs ih =>
    intro a r h
    by_cases hx : x = t
    · subst hx
      simp [scanToCharAny] at h
      obtain ⟨rfl, rfl⟩ := h
      simp
    · cases hrec : scanToCharAny t xs with
      | none => simp [scanToCharAny, hx, hrec] at h
      | some pr =>
        rcases pr with ⟨a', r'⟩
        simp [scanToCharAny, hx, hrec] at h
        obtain ⟨rfl, rfl⟩ := h
        obtain ⟨he, hna⟩ := ih a' r' hrec
        refine ⟨by simp [he], ?_⟩
        intro hmem
        rcases List.mem_cons.mp hmem with heq | hmem'
        · exact hx heq.symm
        · exact hna hmem'


theorem matchAfterBracketF_spec :
    ∀ (fuel : Nat) (l p r : List Char),
      matchAfterBracketF fuel l = some (p, r) →
      l = p ++ r ∧
        ∃ a u, p = a ++ ']' :: '(' :: (u ++ [')']) ∧ '\n' ∉ a ∧ '\n' ∉ u := by
  intro fuel
  induction fuel with
  | zero => intro l p r h; simp [matchAfterBracketF] at h
  | succ f ih =>
    intro l p r h
    cases hscan : scanToCharNoNL ']' l with
    | none => simp [matchAfterBracketF, hscan] at h
    | some ar =>
      rcases ar with ⟨a, rest⟩
      obtain ⟨hl, hna⟩ := scanToCharNoNL_spec ']' l a rest hscan
      simp only [matchAfterBracketF, hscan] at h
      split at h
      · rename_i rest0 r2
        cases hinner : scanToCharNoNL ')' r2 with
        | some ur =>
          rcases ur with ⟨u, r3⟩
          rw [hinner] at h
          simp at h
          obtain ⟨rfl, rfl⟩ := h
          obtain ⟨hr2, hnu⟩ := scanToCharNoNL_spec ')' r2 u r3 hinner
          refine ⟨?_, ⟨a, u, rfl, hna, hnu⟩⟩
          rw [hl, hr2]
          simp
        | none =>
          rw [hinner] at h
          cases hrec : matchAfterBracketF f ('(' :: r2) with
          | none => rw [hrec] at h; simp at h
          | some pr' =>
            rcases pr' with ⟨p', r'⟩
            rw [hrec] at h
            simp at h
            obtain ⟨rfl, rfl⟩ := h
            obtain ⟨hl', a', u, hp', hna', hnu⟩ := ih ('(' :: r2) p' r' hrec
            refine ⟨by rw [hl, hl']; simp, ⟨a ++ ']' :: a', u, ?_, ?_, hnu⟩⟩
            · simp [hp']
            · intro hmem
              rcases List.mem_append.mp hmem with hm | hm
              · exact hna hm
              · rcases List.mem_cons.mp hm with heq | hm'
                · exact absurd heq (by decide)
                · exact hna' hm'
      · cases hrec : matchAfterBracketF f rest with
        | none => rw [hrec] at h; simp at h
        | some pr' =>
          rcases pr' with ⟨p', r'⟩
          rw [hrec] at h
          simp at h
          obtain ⟨rfl, rfl⟩ := h
          obtain ⟨hl', a', u, hp', hna', hnu⟩ := ih rest p' r' hrec
          refine ⟨by rw [hl, hl']; simp, ⟨a ++ ']' :: a', u, ?_, ?_, hnu⟩⟩
          · simp [hp']
          · intro hmem
            rcases List.mem_append.mp hmem with hm | hm
            · exact hna hm
            · rcases List.mem_cons.mp hm with heq | hm'
              · exact absurd heq (by decide)
              · exact hna' hm'

theorem matchImgAt_spec (l p r : List Char) (h : matchImgAt l = some (p, r)) :
    l = p ++ r ∧ isImageLink p := by
  unfold matchImgAt at h
  split at h
  · rename_i rest
    cases hm : matchAfterBracketF rest.length rest with
    | none => rw [hm] at h; simp at h
    | some pr' =>
      rcases pr' with ⟨p', r'⟩
      rw [hm] at h
      simp at h
      obtain ⟨rfl, rfl⟩ := h
      obtain ⟨hrest, a, u, hp', hna, hnu⟩ :=
        matchAfterBracketF_spec rest.length rest p' r' hm
      refine ⟨by rw [hrest]; simp, ⟨a, u, by simp [hp'], hna, hnu⟩⟩
  · simp at h

theorem subImgF_decomp :
    ∀ (fuel : Nat) (l : List Char),
      ∃ ps, removalPieces isImageLink ps l (subImgF fuel l) := by
  intro fuel
  induction fuel with
  | zero =>
    intro l
    refine ⟨[([], l)], ?_, by simp, ?_⟩
    · intro p hp
      rw [List.mem_singleton] at hp
      subst hp
      exact Or.inl rfl
    · cases l with
      | nil => simp [subImgF]
      | cons c cs => simp [subImgF]
  | succ f ih =>
    intro l
    cases l with
    | nil => exact ⟨[], by simp [removalPieces, subImgF]⟩
    | cons c rest =>
      cases hm : matchImgAt (c :: rest) with
      | none =>
        obtain ⟨ps, hP, hIn, hOut⟩ := ih rest
        refine ⟨([], [c]) :: ps, ?_, ?_, ?_⟩
        · intro p hp
          rcases List.mem_cons.mp hp with rfl | hp
          · exact Or.inl rfl
          · exact hP p hp
        · simp [hIn]
        · simp [subImgF, hm, hOut]
      | some pr =>
        rcases pr with ⟨p, r⟩
        obtain ⟨hl, himg⟩ := matchImgAt_spec _ _ _ hm
        obtain ⟨ps, hP, hIn, hOut⟩ := ih r
        refine ⟨(p, []) :: ps, ?_, ?_, ?_⟩
        · intro q hq
          rcases List.mem_cons.mp hq with rfl | hq
          · exact Or.inr himg
          · exact hP q hq
        · simp [hIn, ← hl]
        · simp [subImgF, hm, hOut]

theorem subTagF_decomp :
    ∀ (fuel : Nat) (l : List Char),
      ∃ ps, removalPieces isHtmlTag ps l (subTagF fuel l) := by
  intro fuel
  induction fuel with
  | zero =>
    intro l
    refine ⟨[([], l)], ?_, by simp, ?_⟩
    · intro p hp
      rw [List.mem_singleton] at hp
      subst hp
      exact Or.inl rfl
    · cases l with
      | nil => simp [subTagF]
      | cons c cs => simp [subTagF]
  | succ f ih =>
    intro l
    cases l with
    | nil => exact ⟨[], by simp [removalPieces, subTagF]⟩
    | cons c rest =>
      by_cases hc : c = '<'
      · subst hc
        cases hscan : scanToCharAny '>' rest with
        | none =>
          obtain ⟨ps, hP, hIn, hOut⟩ := ih rest
          refine ⟨([], ['<']) :: ps, ?_, ?_, ?_⟩
          · intro p hp
            rcases List.mem_cons.mp hp with rfl | hp
            · exact Or.inl rfl
            · exact hP p hp
          · simp [hIn]
          · simp [subTagF, hscan, hOut]
        | some ar =>
          rcases ar with ⟨a, r⟩
          obtain ⟨hrest, hnr⟩ := scanToCharAny_spec '>' rest a r hscan
          obtain ⟨ps, hP, hIn, hOut⟩ := ih r
          refine ⟨('<' :: (a ++ ['>']), []) :: ps, ?_, ?_, ?_⟩
          · intro q hq
            rcases List.mem_cons.mp hq with rfl | hq
            · exact Or.inr ⟨a, rfl, hnr⟩
            · exact hP q hq
          · simp [hIn, hrest]
          · simp [subTagF, hscan, hOut]
      · obtain ⟨ps, hP, hIn, hOut⟩ := ih rest
        refine ⟨([], [c]) :: ps, ?_, ?_, ?_⟩
        · intro p hp
          rcases List.mem_cons.mp hp with rfl | hp
          · exact Or.inl rfl
          · exact hP p hp
        · simp [hIn]
        · simp [subTagF, hc, hOut]

/-- C7: `preprocess_markdown` removes image-link spans and (on the
image-stripped text) HTML-tag spans with no replacement text, and alters
nothing else: the output is the input with a set of disjoint spans
deleted, every deleted span matching the image-link pattern in the first
pass or the tag pattern in the second, and every character outside the
deleted spans appears unchanged in the output, in order. -/
theorem C7_preprocess_removes_only_pattern_matches (text : String) :
    ∃ ps1 ps2,
      removalPieces isImageLink ps1 text.data (subImg text.data) ∧
      removalPieces isHtmlTag ps2 (subImg text.data)
        (preprocess_markdown text).data := by
  obtain ⟨ps1, h1⟩ := subImgF_decomp text.data.length text.data
  obtain ⟨ps2, h2⟩ := subTagF_decomp (subImg text.data).length (subImg text.data)
  exact ⟨ps1, ps2, h1, h2⟩
